import Mathlib

/-!
Verification of the `Heap` class of `src/Heap.py` (pyHeap): an array-backed
binary heap with a polarity flag `_is_min_heap` (min-heap when true, max-heap
when false), supporting `build_heap`, `push`, `pop`, `peek`, `push_pop`,
`replace`, `clear`, `items`, `size` and `is_empty`.

The Python list `self._arr` is embedded as a `List Int`; reading `_arr[i]` is
`hget`, writing `_arr[i] = v` is `List.set`, and the tuple-swap `_swap` is
`hswap`.  The fallible operations `pop` and `replace` return an
`Except String _` paired with the resulting state, mirroring exactly where the
Python code raises relative to its mutations.
-/

namespace PyHeap

/-- Read `arr[i]` (all call sites in the source guard `i` in range, so the
default value is never observable under the stated hypotheses). -/
def hget (l : List Int) (i : Nat) : Int := l.getD i 0

/-- `self._swap(a, b)`: the simultaneous tuple assignment
`self._arr[a], self._arr[b] = self._arr[b], self._arr[a]`. -/
def hswap (l : List Int) (a b : Nat) : List Int :=
  (l.set a (hget l b)).set b (hget l a)

/-- `Heap._compare` on the two stored values: `x < y` for a min-heap,
`x > y` for a max-heap (true iff the first has strictly higher priority). -/
def cmp (isMin : Bool) (x y : Int) : Bool :=
  if isMin then decide (x < y) else decide (x > y)

/-- The spec's `order(x, y)`: `x` has priority over or equal priority to `y`
(`x ≤ y` in ascending/min mode, `x ≥ y` in descending/max mode). -/
def order (isMin : Bool) (x y : Int) : Prop :=
  if isMin then x ≤ y else y ≤ x

instance (isMin : Bool) (x y : Int) : Decidable (order isMin x y) := by
  unfold order; split <;> infer_instance

/-- `c` is a child index of `p` in the implicit binary-tree layout. -/
def childIdx (p c : Nat) : Prop := c = 2 * p + 1 ∨ c = 2 * p + 2

instance (p c : Nat) : Decidable (childIdx p c) := by
  unfold childIdx; infer_instance

/-- The heap invariant on a prefix of length `size`: every in-range child is
order-dominated by its parent. -/
def InvariantUpTo (isMin : Bool) (arr : List Int) (size : Nat) : Prop :=
  ∀ p c, c < size → childIdx p c → order isMin (hget arr p) (hget arr c)

/-- The heap invariant of the data model (§3): over the whole array. -/
def Invariant (isMin : Bool) (arr : List Int) : Prop :=
  InvariantUpTo isMin arr arr.length

/-- The index `heapify_down` selects among `index` and its in-range children:
the highest-priority one, ties broken toward `index` then the left child
(this is the value of the `cumulative` local after the two `if`s). -/
def pickChild1 (isMin : Bool) (arr : List Int) (index size : Nat) : Nat :=
  if 2 * index + 1 < size ∧
      cmp isMin (hget arr (2 * index + 1)) (hget arr index) then 2 * index + 1
  else index

def pickChild (isMin : Bool) (arr : List Int) (index size : Nat) : Nat :=
  if 2 * index + 2 < size ∧
      cmp isMin (hget arr (2 * index + 2))
        (hget arr (pickChild1 isMin arr index size)) then 2 * index + 2
  else pickChild1 isMin arr index size

theorem pickChild1_cases (isMin : Bool) (arr : List Int) (index size : Nat) :
    pickChild1 isMin arr index size = index ∨
    (pickChild1 isMin arr index size = 2 * index + 1 ∧ 2 * index + 1 < size) := by
  unfold pickChild1; split <;> omega

theorem pickChild_cases (isMin : Bool) (arr : List Int) (index size : Nat) :
    pickChild isMin arr index size = index ∨
    (index < pickChild isMin arr index size ∧
      pickChild isMin arr index size < size) := by
  have h1 := pickChild1_cases isMin arr index size
  unfold pickChild; split <;> omega

/-- `Heap.heapify_down(index, size)`: select the highest-priority of `index`
and its in-range children; if it is not `index`, swap and recurse there. -/
def heapify_down (isMin : Bool) (arr : List Int) (index size : Nat) :
    List Int :=
  if h : pickChild isMin arr index size = index then arr
  else
    heapify_down isMin (hswap arr index (pickChild isMin arr index size))
      (pickChild isMin arr index size) size
termination_by size - index
decreasing_by
  have := pickChild_cases isMin arr index size
  omega

/-- `Heap.heapify_up(index)`: while `index > 0` and the element strictly
out-prioritises its parent, swap with the parent and continue from there. -/
def heapify_up (isMin : Bool) (arr : List Int) (index : Nat) : List Int :=
  if h : 0 < index then
    if cmp isMin (hget arr index) (hget arr ((index - 1) / 2)) then
      heapify_up isMin (hswap arr index ((index - 1) / 2)) ((index - 1) / 2)
    else arr
  else arr
termination_by index
decreasing_by omega

/-- The loop of `Heap.build_heap`: `for i in range(start_index, -1, -1)` with
`start_index = size // 2 - 1`; `buildFrom _ _ arr n` runs `heapify_down` at
indices `n-1, n-2, ..., 0`. -/
def buildFrom (isMin : Bool) (size : Nat) : List Int → Nat → List Int
  | arr, 0 => arr
  | arr, n + 1 => buildFrom isMin size (heapify_down isMin arr n size) n

/-- `Heap.build_heap()`: bottom-up heapify, indices `size // 2 - 1` down to
`0` (for `size ≤ 1` the Python range is empty, matching `size / 2 = 0`). -/
def build_heap (isMin : Bool) (arr : List Int) : List Int :=
  buildFrom isMin arr.length arr (arr.length / 2)

/-- Python's `list.index(v)` restricted to success/failure: the first index
holding `v`, or `none` (the `ValueError` path) when `v` is absent. -/
def pyIndex : List Int → Int → Option Nat
  | [], _ => none
  | x :: xs, v => if x = v then some 0 else (pyIndex xs v).map (· + 1)

/-! ### Basic facts about `hget`, `List.set` and `hswap` -/

theorem hget_cons_succ (x : Int) (xs : List Int) (n : Nat) :
    hget (x :: xs) (n + 1) = hget xs n := rfl

theorem hget_eq_getElem {l : List Int} {n : Nat} (h : n < l.length) :
    hget l n = l[n] := List.getD_eq_getElem l 0 h

theorem hget_set_self {l : List Int} {n : Nat} (v : Int) (h : n < l.length) :
    hget (l.set n v) n = v := by
  rw [hget_eq_getElem (by simpa using h)]
  simp

theorem hget_set_ne {l : List Int} {m n : Nat} (v : Int) (hmn : m ≠ n) :
    hget (l.set n v) m = hget l m := by
  by_cases hm : m < l.length
  · rw [hget_eq_getElem (by simpa using hm), hget_eq_getElem hm,
      List.getElem_set_ne (by omega)]
  · have h1 : l.length ≤ m := by omega
    unfold hget
    rw [List.getD_eq_default _ _ (by simpa using h1),
      List.getD_eq_default _ _ h1]

theorem length_hswap (l : List Int) (a b : Nat) :
    (hswap l a b).length = l.length := by
  simp [hswap]

/-- Overwriting index `n` exchanges one copy of the old entry for `v`
in the multiset of elements. -/
theorem multiset_set {l : List Int} {n : Nat} (v : Int) (h : n < l.length) :
    (l.set n v : Multiset Int) + {hget l n} = (l : Multiset Int) + {v} := by
  have hl : l = l.take n ++ hget l n :: l.drop (n + 1) := by
    conv_lhs => rw [← List.take_append_drop n l]
    rw [List.drop_eq_getElem_cons h, hget_eq_getElem h]
  rw [List.set_eq_take_cons_drop v h]
  conv_rhs => rw [hl]
  simp only [← Multiset.cons_coe, ← Multiset.coe_add,
    List.singleton_append, List.append_assoc]
  simp only [Multiset.coe_add, ← Multiset.singleton_add]
  abel

theorem hget_set_left {l : List Int} {a b : Nat} (v : Int) :
    hget (l.set a v) b = hget l b ∨ hget (l.set a v) b = v := by
  by_cases hab : b = a
  · subst hab
    by_cases hb : b < l.length
    · exact Or.inr (hget_set_self v hb)
    · have h1 : l.length ≤ b := by omega
      left; unfold hget
      rw [List.getD_eq_default _ _ (by simpa using h1),
        List.getD_eq_default _ _ h1]
  · exact Or.inl (hget_set_ne v hab)

theorem hswap_perm {l : List Int} {a b : Nat} (ha : a < l.length)
    (hb : b < l.length) : (hswap l a b).Perm l := by
  rw [← Multiset.coe_eq_coe]
  have h1 : ((l.set a (hget l b)).set b (hget l a) : Multiset Int) +
      {hget (l.set a (hget l b)) b} =
      (l.set a (hget l b) : Multiset Int) + {hget l a} :=
    multiset_set _ (by simpa using hb)
  have h2 : (l.set a (hget l b) : Multiset Int) + {hget l a} =
      (l : Multiset Int) + {hget l b} := multiset_set _ ha
  have h3 : hget (l.set a (hget l b)) b = hget l b := by
    by_cases hab : b = a
    · subst hab; exact hget_set_self _ ha
    · exact hget_set_ne _ hab
  have := h1.trans h2
  rw [h3] at this
  exact add_right_cancel this

theorem hget_hswap_fst {l : List Int} {a b : Nat} (ha : a < l.length)
    (hab : a ≠ b) : hget (hswap l a b) a = hget l b := by
  rw [hswap, hget_set_ne _ hab, hget_set_self _ ha]

theorem hget_hswap_snd {l : List Int} {a b : Nat} (hb : b < l.length) :
    hget (hswap l a b) b = hget l a :=
  hget_set_self _ (by simpa using hb)

theorem hget_hswap_other {l : List Int} {a b c : Nat} (hca : c ≠ a)
    (hcb : c ≠ b) : hget (hswap l a b) c = hget l c := by
  rw [hswap, hget_set_ne _ hcb, hget_set_ne _ hca]

/-- The `Heap` object: `_arr` and `_is_min_heap` (set once at construction). -/
structure Heap where
  arr : List Int
  isMinHeap : Bool
deriving DecidableEq

/-- `Heap.__init__(arr, isMinHeap)`: `self._arr = list(arr)` (a copy of the
caller's list — aliasing is treated separately in the store model below),
`self._is_min_heap = isMinHeap`, then `self.build_heap()`. -/
def Heap.init (arr : List Int) (isMinHeap : Bool := false) : Heap :=
  { arr := build_heap isMinHeap arr, isMinHeap := isMinHeap }

/-- `Heap.size`: `len(self._arr)`. -/
def Heap.size (h : Heap) : Nat := h.arr.length

/-- `Heap.is_empty()`: `len(self._arr) == 0`. -/
def Heap.is_empty (h : Heap) : Bool := h.arr.length == 0

/-- Truthiness of the expression `self.is_empty` as it appears in `peek`:
the source omits the call parentheses, so this is a bound-method object,
which Python always treats as truthy. -/
def isEmptyMethodTruthy (h : Heap) : Bool := true

/-- `Heap.peek()`: `None if self.is_empty else self._arr[0]`.  Because the
condition is the (always-truthy) method object, the conditional always takes
the `None` branch. -/
def Heap.peek (h : Heap) : Option Int :=
  if isEmptyMethodTruthy h then none else some (hget h.arr 0)

/-- `Heap.push(value)`: append, then `heapify_up(len(self._arr) - 1)`. -/
def Heap.push (h : Heap) (value : Int) : Heap :=
  let arr := h.arr ++ [value]
  { arr := heapify_up h.isMinHeap arr (arr.length - 1),
    isMinHeap := h.isMinHeap }

/-- `Heap.pop()`: raise on empty (before touching `_arr`); otherwise save the
root, swap it with the last element, drop the last slot, and sift the new
root down if anything remains.  The second component is the state of the
heap when the call returns or raises. -/
def Heap.pop (h : Heap) : Except String Int × Heap :=
  if h.arr.length = 0 then (.error "Pop from empty heap", h)
  else
    let root := hget h.arr 0
    let lastIndex := h.arr.length - 1
    let arr1 := (hswap h.arr 0 lastIndex).dropLast
    let arr2 := if arr1.length = 0 then arr1
      else heapify_down h.isMinHeap arr1 0 arr1.length
    (.ok root, { arr := arr2, isMinHeap := h.isMinHeap })

/-- `Heap.push_pop(value)`: on empty, push and return the value.  Otherwise
the source tests `(self._is_min_heap and value > root) or not
(self._is_min_heap and value < root)` — reproduced verbatim — and either
overwrites the root and sifts down (returning the old root) or returns the
value with the array untouched. -/
def Heap.push_pop (h : Heap) (value : Int) : Int × Heap :=
  if h.arr.length = 0 then (value, h.push value)
  else
    let root := hget h.arr 0
    if (h.isMinHeap && decide (value > root)) ||
        !(h.isMinHeap && decide (value < root)) then
      let arr := h.arr.set 0 value
      (root, { arr := heapify_down h.isMinHeap arr 0 arr.length,
               isMinHeap := h.isMinHeap })
    else (value, h)

/-- `Heap.replace(oldValue, newValue)`: raise `"Heap is empty"` on an empty
heap; otherwise scan for the first index holding `oldValue`
(`self._arr.index`), raising the not-found `ValueError` if absent; else
overwrite that slot and sift up when the new value strictly out-prioritises
the parent, sift down otherwise.  The second component is the state when the
call returns or raises (both raises happen before any write). -/
def Heap.replace (h : Heap) (oldValue newValue : Int) :
    Except String Unit × Heap :=
  if h.arr.length = 0 then (.error "Heap is empty", h)
  else
    match pyIndex h.arr oldValue with
    | none => (.error (toString oldValue ++ " not found in heap"), h)
    | some index =>
      let arr := h.arr.set index newValue
      let p := (index - 1) / 2
      if 0 < index ∧ cmp h.isMinHeap (hget arr index) (hget arr p) then
        (.ok (), { arr := heapify_up h.isMinHeap arr index,
                   isMinHeap := h.isMinHeap })
      else
        (.ok (), { arr := heapify_down h.isMinHeap arr index arr.length,
                   isMinHeap := h.isMinHeap })

/-- `Heap.clear()`: `self._arr.clear()`. -/
def Heap.clear (h : Heap) : Heap := { arr := [], isMinHeap := h.isMinHeap }

/-- `Heap.items()`: `self._arr.copy()` — the current contents in internal
array order (the copy/aliasing aspect is treated in the store model below). -/
def Heap.items (h : Heap) : List Int := h.arr

/-! ### Length and permutation preservation of the sift primitives -/

theorem heapify_down_length (isMin : Bool) (arr : List Int)
    (index size : Nat) :
    (heapify_down isMin arr index size).length = arr.length := by
  unfold heapify_down
  split
  · rfl
  · rw [heapify_down_length, length_hswap]
termination_by size - index
decreasing_by
  have := pickChild_cases isMin arr index size
  omega

theorem heapify_down_perm (isMin : Bool) (arr : List Int) (index size : Nat)
    (hsz : size ≤ arr.length) :
    (heapify_down isMin arr index size).Perm arr := by
  unfold heapify_down
  split
  · exact List.Perm.refl arr
  · rename_i h
    have hc := pickChild_cases isMin arr index size
    have hc2 : index < pickChild isMin arr index size ∧
        pickChild isMin arr index size < size := by
      rcases hc with hc | hc
      · exact absurd hc h
      · exact hc
    have hperm := hswap_perm (l := arr) (a := index)
      (b := pickChild isMin arr index size) (by omega) (by omega)
    exact (heapify_down_perm isMin _ _ size
      (by rw [length_hswap]; exact hsz)).trans hperm
termination_by size - index
decreasing_by
  have := pickChild_cases isMin arr index size
  omega

theorem heapify_up_length (isMin : Bool) (arr : List Int) (index : Nat) :
    (heapify_up isMin arr index).length = arr.length := by
  unfold heapify_up
  split
  · split
    · rw [heapify_up_length, length_hswap]
    · rfl
  · rfl
termination_by index
decreasing_by omega

theorem heapify_up_perm (isMin : Bool) (arr : List Int) (index : Nat)
    (hidx : index < arr.length) : (heapify_up isMin arr index).Perm arr := by
  unfold heapify_up
  split
  · rename_i h0
    split
    · have hperm := hswap_perm (l := arr) (a := index)
        (b := (index - 1) / 2) hidx (by omega)
      exact (heapify_up_perm isMin _ _
        (by rw [length_hswap]; omega)).trans hperm
    · exact List.Perm.refl arr
  · exact List.Perm.refl arr
termination_by index
decreasing_by omega

theorem buildFrom_length (isMin : Bool) (size : Nat) (arr : List Int)
    (n : Nat) : (buildFrom isMin size arr n).length = arr.length := by
  induction n generalizing arr with
  | zero => rfl
  | succ n ih => rw [buildFrom, ih, heapify_down_length]

theorem buildFrom_perm (isMin : Bool) (size : Nat) (arr : List Int) (n : Nat)
    (hsz : size ≤ arr.length) : (buildFrom isMin size arr n).Perm arr := by
  induction n generalizing arr with
  | zero => exact List.Perm.refl arr
  | succ n ih =>
    rw [buildFrom]
    exact (ih _ (by rw [heapify_down_length]; exact hsz)).trans
      (heapify_down_perm isMin arr n size hsz)

theorem build_heap_length (isMin : Bool) (arr : List Int) :
    (build_heap isMin arr).length = arr.length := buildFrom_length ..

theorem build_heap_perm (isMin : Bool) (arr : List Int) :
    (build_heap isMin arr).Perm arr := buildFrom_perm _ _ _ _ le_rfl

theorem pop_ok_length {h : Heap} {v : Int} {h' : Heap}
    (hp : h.pop = (.ok v, h')) : h'.arr.length + 1 = h.arr.length := by
  unfold Heap.pop at hp
  split at hp
  · exact absurd hp (by simp)
  · rename_i hne
    simp only [Prod.mk.injEq] at hp
    rw [← hp.2]
    split
    · rename_i hz
      simp only [List.length_dropLast, length_hswap] at hz ⊢
      omega
    · rename_i hz
      simp only [List.length_dropLast, length_hswap,
        heapify_down_length] at hz ⊢
      omega

/-! ### Order, child-index and ancestor facts -/

theorem order_refl (isMin : Bool) (x : Int) : order isMin x x := by
  unfold order; split <;> exact le_refl x

theorem order_trans {isMin : Bool} {x y z : Int} (h1 : order isMin x y)
    (h2 : order isMin y z) : order isMin x z := by
  unfold order at *
  split at h1 <;> simp_all <;> omega

theorem cmp_order {isMin : Bool} {x y : Int} (h : cmp isMin x y = true) :
    order isMin x y := by
  unfold cmp at h; unfold order
  split at h <;> simp_all <;> omega

theorem not_cmp_order {isMin : Bool} {x y : Int} (h : cmp isMin x y = false) :
    order isMin y x := by
  unfold cmp at h; unfold order
  split at h <;> simp_all <;> omega

theorem cmp_trans {isMin : Bool} {x y z : Int} (h1 : cmp isMin x y = true)
    (h2 : cmp isMin y z = true) : cmp isMin x z = true := by
  unfold cmp at *
  split at h1 <;> simp_all <;> omega

theorem childIdx_parent {p c : Nat} (h : childIdx p c) : p = (c - 1) / 2 := by
  unfold childIdx at h; omega

theorem childIdx_pos {p c : Nat} (h : childIdx p c) : 0 < c := by
  unfold childIdx at h; omega

theorem childIdx_lt {p c : Nat} (h : childIdx p c) : p < c := by
  unfold childIdx at h; omega

theorem childIdx_of_pos {c : Nat} (h : 0 < c) : childIdx ((c - 1) / 2) c := by
  unfold childIdx; omega

/-- The invariant is equivalent to its parent-pointer formulation, which is
a bounded (hence decidable) quantification. -/
theorem invariantUpTo_iff (isMin : Bool) (arr : List Int) (size : Nat) :
    InvariantUpTo isMin arr size ↔
    ∀ c, c < size → 0 < c →
      order isMin (hget arr ((c - 1) / 2)) (hget arr c) := by
  constructor
  · intro H c hc hc0
    exact H _ _ hc (childIdx_of_pos hc0)
  · intro H p c hc hpc
    rw [childIdx_parent hpc]
    exact H c hc (childIdx_pos hpc)

instance (isMin : Bool) (arr : List Int) (size : Nat) :
    Decidable (InvariantUpTo isMin arr size) :=
  decidable_of_iff _ (invariantUpTo_iff isMin arr size).symm

instance (isMin : Bool) (arr : List Int) : Decidable (Invariant isMin arr) :=
  by unfold Invariant; infer_instance

/-- The parent index `(j - 1) // 2` (as used throughout the source). -/
def parentIdx (j : Nat) : Nat := (j - 1) / 2

/-- `n`-fold parent of `j`. -/
def ancChain : Nat → Nat → Nat
  | 0, j => j
  | n + 1, j => parentIdx (ancChain n j)

/-- `i` is an ancestor of `j` (or `j` itself) in the binary-tree layout. -/
def anc (i j : Nat) : Prop := ∃ n, ancChain n j = i

theorem ancChain_le (n j : Nat) : ancChain n j ≤ j := by
  induction n with
  | zero => exact le_refl j
  | succ n ih =>
    have : parentIdx (ancChain n j) ≤ ancChain n j := by
      unfold parentIdx; omega
    calc ancChain (n + 1) j = parentIdx (ancChain n j) := rfl
      _ ≤ ancChain n j := this
      _ ≤ j := ih

theorem ancChain_comp (n j : Nat) :
    ancChain n (parentIdx j) = ancChain (n + 1) j := by
  induction n with
  | zero => rfl
  | succ n ih =>
    show parentIdx (ancChain n (parentIdx j)) = parentIdx (ancChain (n + 1) j)
    rw [ih]

theorem ancChain_add (n m j : Nat) :
    ancChain (n + m) j = ancChain n (ancChain m j) := by
  induction n with
  | zero => simp [ancChain]
  | succ n ih =>
    have e1 : n + 1 + m = (n + m) + 1 := by omega
    rw [e1]
    show parentIdx (ancChain (n + m) j) = parentIdx (ancChain n (ancChain m j))
    rw [ih]

theorem anc_refl (i : Nat) : anc i i := ⟨0, rfl⟩

theorem anc_le {i j : Nat} (h : anc i j) : i ≤ j := by
  obtain ⟨n, hn⟩ := h
  rw [← hn]
  exact ancChain_le n j

theorem anc_parent {i j : Nat} (h : anc i (parentIdx j)) : anc i j := by
  obtain ⟨n, hn⟩ := h
  exact ⟨n + 1, by rw [← ancChain_comp]; exact hn⟩

theorem anc_child {i p c : Nat} (h : anc i p) (hpc : childIdx p c) :
    anc i c := by
  apply anc_parent
  have hp : parentIdx c = p := by
    unfold parentIdx; exact (childIdx_parent hpc).symm
  rwa [hp]

theorem anc_trans {i j k : Nat} (h1 : anc i j) (h2 : anc j k) : anc i k := by
  obtain ⟨n, hn⟩ := h1
  obtain ⟨m, hm⟩ := h2
  exact ⟨n + m, by rw [ancChain_add, hm, hn]⟩

theorem anc_zero (j : Nat) : anc 0 j := by
  induction j using Nat.strong_induction_on with
  | _ j ih =>
    rcases Nat.eq_zero_or_pos j with h | h
    · rw [h]; exact anc_refl 0
    · exact anc_parent (ih (parentIdx j) (by unfold parentIdx; omega))

theorem ancChain_zero_idx (n : Nat) : ancChain n 0 = 0 := by
  induction n with
  | zero => rfl
  | succ n ih => calc ancChain (n + 1) 0 = parentIdx (ancChain n 0) := rfl
      _ = parentIdx 0 := by rw [ih]
      _ = 0 := rfl

theorem anc_cases {i j : Nat} (h : anc i j) :
    i = j ∨ (0 < j ∧ anc i (parentIdx j)) := by
  obtain ⟨n, hn⟩ := h
  match n with
  | 0 => exact Or.inl hn.symm
  | n + 1 =>
    rcases Nat.eq_zero_or_pos j with hj | hj
    · left
      rw [hj] at hn
      rw [ancChain_zero_idx] at hn
      rw [hj, ← hn]
    · right
      exact ⟨hj, ⟨n, by rw [ancChain_comp]; exact hn⟩⟩

/-- Two distinct children of the same node head disjoint subtrees. -/
theorem not_anc_sibling {p a b : Nat} (ha : childIdx p a) (hb : childIdx p b)
    (hab : a ≠ b) : ¬ anc a b := by
  intro h
  rcases anc_cases h with h | ⟨h0, h⟩
  · exact hab h
  · unfold parentIdx at h
    rw [← childIdx_parent hb] at h
    have := anc_le h
    have := childIdx_lt ha
    omega

/-! ### The selection made by `heapify_down` -/

/-- If no swap happens, `index` already order-dominates its in-range
children. -/
theorem pickChild_eq_spec {isMin : Bool} {arr : List Int} {index size : Nat}
    (h : pickChild isMin arr index size = index) :
    ∀ c, c < size → childIdx index c →
      order isMin (hget arr index) (hget arr c) := by
  intro c hc hcc
  by_cases h1 : 2 * index + 1 < size ∧
      cmp isMin (hget arr (2 * index + 1)) (hget arr index) = true
  · have hp1 : pickChild1 isMin arr index size = 2 * index + 1 := by
      unfold pickChild1; rw [if_pos h1]
    unfold pickChild at h
    rw [hp1] at h
    split at h <;> omega
  · have hp1 : pickChild1 isMin arr index size = index := by
      unfold pickChild1; rw [if_neg h1]
    by_cases h2 : 2 * index + 2 < size ∧
        cmp isMin (hget arr (2 * index + 2)) (hget arr index) = true
    · unfold pickChild at h
      rw [hp1, if_pos h2] at h
      omega
    · rcases hcc with hc1 | hc2
      · subst hc1
        have hf : cmp isMin (hget arr (2 * index + 1)) (hget arr index)
            = false := by
          rcases Bool.eq_false_or_eq_true
            (cmp isMin (hget arr (2 * index + 1)) (hget arr index)) with hb | hb
          · exact absurd ⟨hc, hb⟩ h1
          · exact hb
        exact not_cmp_order hf
      · subst hc2
        have hf : cmp isMin (hget arr (2 * index + 2)) (hget arr index)
            = false := by
          rcases Bool.eq_false_or_eq_true
            (cmp isMin (hget arr (2 * index + 2)) (hget arr index)) with hb | hb
          · exact absurd ⟨hc, hb⟩ h2
          · exact hb
        exact not_cmp_order hf

/-- If a swap happens, the selected position is an in-range child of `index`
that strictly beats `index` and order-dominates both in-range children. -/
theorem pickChild_ne_spec {isMin : Bool} {arr : List Int} {index size : Nat}
    (h : pickChild isMin arr index size ≠ index) :
    childIdx index (pickChild isMin arr index size) ∧
    pickChild isMin arr index size < size ∧
    cmp isMin (hget arr (pickChild isMin arr index size))
      (hget arr index) = true ∧
    ∀ c, c < size → childIdx index c →
      order isMin (hget arr (pickChild isMin arr index size))
        (hget arr c) := by
  by_cases h1 : 2 * index + 1 < size ∧
      cmp isMin (hget arr (2 * index + 1)) (hget arr index) = true
  · have hp1 : pickChild1 isMin arr index size = 2 * index + 1 := by
      unfold pickChild1; rw [if_pos h1]
    by_cases h2 : 2 * index + 2 < size ∧
        cmp isMin (hget arr (2 * index + 2)) (hget arr (2 * index + 1)) = true
    · have hp : pickChild isMin arr index size = 2 * index + 2 := by
        unfold pickChild; rw [hp1, if_pos h2]
      rw [hp]
      refine ⟨Or.inr rfl, h2.1, cmp_trans h2.2 h1.2, ?_⟩
      intro c hc hcc
      rcases hcc with hc1 | hc2
      · subst hc1; exact cmp_order h2.2
      · subst hc2; exact order_refl isMin _
    · have hp : pickChild isMin arr index size = 2 * index + 1 := by
        unfold pickChild; rw [hp1, if_neg h2]
      rw [hp]
      refine ⟨Or.inl rfl, h1.1, h1.2, ?_⟩
      intro c hc hcc
      rcases hcc with hc1 | hc2
      · subst hc1; exact order_refl isMin _
      · subst hc2
        have hf : cmp isMin (hget arr (2 * index + 2))
            (hget arr (2 * index + 1)) = false := by
          rcases Bool.eq_false_or_eq_true
            (cmp isMin (hget arr (2 * index + 2))
              (hget arr (2 * index + 1))) with hb | hb
          · exact absurd ⟨hc, hb⟩ h2
          · exact hb
        exact not_cmp_order hf
  · have hp1 : pickChild1 isMin arr index size = index := by
      unfold pickChild1; rw [if_neg h1]
    by_cases h2 : 2 * index + 2 < size ∧
        cmp isMin (hget arr (2 * index + 2)) (hget arr index) = true
    · have hp : pickChild isMin arr index size = 2 * index + 2 := by
        unfold pickChild; rw [hp1, if_pos h2]
      rw [hp]
      refine ⟨Or.inr rfl, h2.1, h2.2, ?_⟩
      intro c hc hcc
      rcases hcc with hc1 | hc2
      · subst hc1
        have hf : cmp isMin (hget arr (2 * index + 1)) (hget arr index)
            = false := by
          rcases Bool.eq_false_or_eq_true
            (cmp isMin (hget arr (2 * index + 1)) (hget arr index)) with hb | hb
          · exact absurd ⟨hc, hb⟩ h1
          · exact hb
        exact order_trans (cmp_order h2.2) (not_cmp_order hf)
      · subst hc2; exact order_refl isMin _
    · exact absurd (by unfold pickChild; rw [hp1, if_neg h2]) h

/-! ### Behaviour of `heapify_down`: locality, bounds, correctness -/

/-- `heapify_down` starting at `index` leaves every position outside the
subtree rooted at `index` unchanged. -/
theorem heapify_down_get_of_not_anc (isMin : Bool) (arr : List Int)
    (index size : Nat) (j : Nat) (hj : ¬ anc index j) :
    hget (heapify_down isMin arr index size) j = hget arr j := by
  unfold heapify_down
  split
  · rfl
  · rename_i hne
    obtain ⟨hchild, hlt, _, _⟩ := pickChild_ne_spec hne
    have hanc_c : anc index (pickChild isMin arr index size) :=
      anc_child (anc_refl _) hchild
    have hj_ne_i : j ≠ index := fun hh => hj (by rw [hh]; exact anc_refl _)
    have hj_ne_c : j ≠ pickChild isMin arr index size :=
      fun hh => hj (by rw [hh]; exact hanc_c)
    have hj' : ¬ anc (pickChild isMin arr index size) j :=
      fun hh => hj (anc_trans hanc_c hh)
    rw [heapify_down_get_of_not_anc _ _ _ _ j hj',
      hget_hswap_other hj_ne_i hj_ne_c]
termination_by size - index
decreasing_by
  have := pickChild_cases isMin arr index size
  omega

/-- `heapify_down` preserves any uniform priority bound on the subtree it
works in. -/
theorem heapify_down_bound {isMin : Bool} {arr : List Int} {index size : Nat}
    (hsz : size ≤ arr.length) {v : Int}
    (hv : ∀ j, anc index j → j < size → order isMin v (hget arr j)) :
    ∀ j, anc index j → j < size →
      order isMin v (hget (heapify_down isMin arr index size) j) := by
  unfold heapify_down
  split
  · exact hv
  · rename_i hne
    obtain ⟨hchild, hlt, hcmp, hdom⟩ := pickChild_ne_spec hne
    have hidx_lt := childIdx_lt hchild
    have hclen : pickChild isMin arr index size < arr.length := by omega
    have hanc_c : anc index (pickChild isMin arr index size) :=
      anc_child (anc_refl _) hchild
    intro j hj hjsz
    have hv2 : ∀ j', anc (pickChild isMin arr index size) j' → j' < size →
        order isMin v
          (hget (hswap arr index (pickChild isMin arr index size)) j') := by
      intro j' hj' hj'sz
      by_cases hjc : j' = pickChild isMin arr index size
      · subst hjc
        rw [hget_hswap_snd hclen]
        exact hv index (anc_refl index) (by omega)
      · have hji : j' ≠ index := by
          have := anc_le hj'
          omega
        rw [hget_hswap_other hji hjc]
        exact hv j' (anc_trans hanc_c hj') hj'sz
    by_cases hjanc : anc (pickChild isMin arr index size) j
    · exact heapify_down_bound (by rwa [length_hswap]) hv2 j hjanc hjsz
    · rw [heapify_down_get_of_not_anc _ _ _ _ j hjanc]
      by_cases hji : j = index
      · subst hji
        rw [hget_hswap_fst (by omega) (by omega)]
        exact hv _ hanc_c (by omega)
      · have hjc : j ≠ pickChild isMin arr index size :=
          fun hh => hjanc (by rw [hh]; exact anc_refl _)
        rw [hget_hswap_other hji hjc]
        exact hv j hj hjsz
termination_by size - index
decreasing_by
  have := pickChild_cases isMin arr index size
  omega

/-- In a region where every edge below `r`'s subtree is valid, the subtree
root `r` order-dominates every element of its subtree. -/
theorem subtree_root_dominates {isMin : Bool} {arr : List Int}
    {size r : Nat}
    (H : ∀ p c, c < size → childIdx p c → anc r p →
      order isMin (hget arr p) (hget arr c)) :
    ∀ d, anc r d → d < size → order isMin (hget arr r) (hget arr d) := by
  intro d
  induction d using Nat.strong_induction_on with
  | _ d ih =>
    intro hrd hd
    rcases anc_cases hrd with h | ⟨h0, h⟩
    · rw [h]; exact order_refl isMin _
    · have hp : childIdx (parentIdx d) d := childIdx_of_pos h0
      have hplt : parentIdx d < d := by unfold parentIdx; omega
      exact order_trans (ih _ hplt h (by omega)) (H _ _ hd hp h)

/-- Main correctness of `heapify_down`: if every edge with parent strictly
below `index` (in tree order: parent index `> index`) is valid, then after
sifting down from `index` every edge with parent `≥ index` is valid. -/
theorem heapify_down_correct {isMin : Bool} {arr : List Int}
    {index size : Nat} (hsz : size ≤ arr.length)
    (H1 : ∀ p c, c < size → childIdx p c → index < p →
      order isMin (hget arr p) (hget arr c)) :
    ∀ p c, c < size → childIdx p c → index ≤ p →
      order isMin (hget (heapify_down isMin arr index size) p)
        (hget (heapify_down isMin arr index size) c) := by
  unfold heapify_down
  split
  · rename_i heq
    intro p c hc hpc hip
    rcases Nat.lt_or_ge index p with hx | hx
    · exact H1 p c hc hpc hx
    · have hpi : p = index := by omega
      subst hpi
      exact pickChild_eq_spec heq c hc hpc
  · rename_i hne
    obtain ⟨hchild, hlt, hcmp, hdom⟩ := pickChild_ne_spec hne
    have hidx_lt := childIdx_lt hchild
    have hilen : index < arr.length := by omega
    have hclen : pickChild isMin arr index size < arr.length := by omega
    have hanc_c : anc index (pickChild isMin arr index size) :=
      anc_child (anc_refl _) hchild
    have hsz' : size ≤ (hswap arr index (pickChild isMin arr index size)).length := by
      rwa [length_hswap]
    have H1' : ∀ p c, c < size → childIdx p c →
        pickChild isMin arr index size < p →
        order isMin
          (hget (hswap arr index (pickChild isMin arr index size)) p)
          (hget (hswap arr index (pickChild isMin arr index size)) c) := by
      intro p c hc hpc hp
      have hclt := childIdx_lt hpc
      rw [hget_hswap_other (by omega) (by omega),
        hget_hswap_other (by omega) (by omega)]
      exact H1 p c hc hpc (by omega)
    have IH := heapify_down_correct hsz' H1'
    have hL0 : ∀ d, anc (pickChild isMin arr index size) d → d < size →
        order isMin (hget arr (pickChild isMin arr index size))
          (hget arr d) := by
      apply subtree_root_dominates
      intro p c hc hpc hanc
      exact H1 p c hc hpc (by have := anc_le hanc; omega)
    have hbound_pre : ∀ j, anc (pickChild isMin arr index size) j →
        j < size →
        order isMin (hget arr (pickChild isMin arr index size))
          (hget (hswap arr index (pickChild isMin arr index size)) j) := by
      intro j hj hjsz
      by_cases hjc : j = pickChild isMin arr index size
      · subst hjc
        rw [hget_hswap_snd hclen]
        exact cmp_order hcmp
      · have hji : j ≠ index := by have := anc_le hj; omega
        rw [hget_hswap_other hji hjc]
        exact hL0 j hj hjsz
    have hbound := heapify_down_bound hsz' hbound_pre
    have hloc := heapify_down_get_of_not_anc isMin
      (hswap arr index (pickChild isMin arr index size))
      (pickChild isMin arr index size) size
    intro p c hc hpc hip
    by_cases hanc : anc (pickChild isMin arr index size) p
    · exact IH p c hc hpc (anc_le hanc)
    · by_cases hpi : p = index
      · rw [hpi] at hpc hanc ⊢
        have harrp : hget (heapify_down isMin
            (hswap arr index (pickChild isMin arr index size))
            (pickChild isMin arr index size) size) index
            = hget arr (pickChild isMin arr index size) := by
          rw [hloc index hanc, hget_hswap_fst hilen (by omega)]
        by_cases hcc2 : c = pickChild isMin arr index size
        · subst hcc2
          rw [harrp]
          exact hbound _ (anc_refl _) hlt
        · have hnanc : ¬ anc (pickChild isMin arr index size) c :=
            not_anc_sibling hchild hpc (fun hh => hcc2 hh.symm)
          have harrc : hget (heapify_down isMin
              (hswap arr index (pickChild isMin arr index size))
              (pickChild isMin arr index size) size) c = hget arr c := by
            rw [hloc c hnanc,
              hget_hswap_other (by have := childIdx_lt hpc; omega) hcc2]
          rw [harrp, harrc]
          exact hdom c hc hpc
      · have hpgt : index < p := by omega
        have hp_ne_c2 : p ≠ pickChild isMin arr index size :=
          fun hh => hanc (by rw [hh]; exact anc_refl _)
        have hcanc : ¬ anc (pickChild isMin arr index size) c := by
          intro hh
          rcases anc_cases hh with hh' | ⟨hh0, hh'⟩
          · apply hpi
            rw [childIdx_parent hpc, ← hh', ← childIdx_parent hchild]
          · apply hanc
            unfold parentIdx at hh'
            rwa [← childIdx_parent hpc] at hh'
        have hc_ne : c ≠ index := by have := childIdx_lt hpc; omega
        have hc_ne2 : c ≠ pickChild isMin arr index size :=
          fun hh => hcanc (by rw [hh]; exact anc_refl _)
        rw [hloc p hanc, hloc c hcanc,
          hget_hswap_other hpi hp_ne_c2, hget_hswap_other hc_ne hc_ne2]
        exact H1 p c hc hpc hpgt
termination_by size - index
decreasing_by
  have := pickChild_cases isMin arr index size
  omega

theorem bool_eq_false {b : Bool} (h : ¬ b = true) : b = false := by
  cases b
  · rfl
  · exact absurd rfl h

/-- Main correctness of `heapify_up`: if every edge except the one into `k`
is valid, and `k`'s grandparent bridge holds (`k`'s parent dominates `k`'s
children), then after sifting up from `k` every edge is valid. -/
theorem heapify_up_correct {isMin : Bool} {arr : List Int} {k : Nat}
    (hk : k < arr.length)
    (H1 : ∀ p c, c < arr.length → childIdx p c → c ≠ k →
      order isMin (hget arr p) (hget arr c))
    (H2 : ∀ c, c < arr.length → childIdx k c →
      order isMin (hget arr ((k - 1) / 2)) (hget arr c)) :
    ∀ p c, c < arr.length → childIdx p c →
      order isMin (hget (heapify_up isMin arr k) p)
        (hget (heapify_up isMin arr k) c) := by
  unfold heapify_up
  split
  · rename_i h0
    split
    · rename_i hcmp
      have hPk : childIdx ((k - 1) / 2) k := childIdx_of_pos h0
      have hPlt : (k - 1) / 2 < k := by omega
      have hPlen : (k - 1) / 2 < arr.length := by omega
      have hk' : (k - 1) / 2 < (hswap arr k ((k - 1) / 2)).length := by
        rw [length_hswap]; omega
      have hvk : hget (hswap arr k ((k - 1) / 2)) k = hget arr ((k - 1) / 2) :=
        hget_hswap_fst hk (by omega)
      have hvP : hget (hswap arr k ((k - 1) / 2)) ((k - 1) / 2)
          = hget arr k := hget_hswap_snd hPlen
      have hother : ∀ x, x ≠ k → x ≠ (k - 1) / 2 →
          hget (hswap arr k ((k - 1) / 2)) x = hget arr x :=
        fun x hx1 hx2 => hget_hswap_other hx1 hx2
      have H1' : ∀ p c, c < (hswap arr k ((k - 1) / 2)).length →
          childIdx p c → c ≠ (k - 1) / 2 →
          order isMin (hget (hswap arr k ((k - 1) / 2)) p)
            (hget (hswap arr k ((k - 1) / 2)) c) := by
        rw [length_hswap]
        intro p c hc hpc hcP
        by_cases hck : c = k
        · subst hck
          rw [childIdx_parent hpc, hvP, hvk]
          exact cmp_order hcmp
        · rw [hother c hck hcP]
          by_cases hpk : p = k
          · subst hpk
            rw [hvk]
            exact H2 c hc hpc
          · by_cases hpP : p = (k - 1) / 2
            · subst hpP
              rw [hvP]
              exact order_trans (cmp_order hcmp) (H1 _ c hc hpc hck)
            · rw [hother p hpk hpP]
              exact H1 p c hc hpc hck
      have H2' : ∀ c, c < (hswap arr k ((k - 1) / 2)).length →
          childIdx ((k - 1) / 2) c →
          order isMin
            (hget (hswap arr k ((k - 1) / 2)) (((k - 1) / 2 - 1) / 2))
            (hget (hswap arr k ((k - 1) / 2)) c) := by
        rw [length_hswap]
        intro c hc hpc
        rcases Nat.eq_zero_or_pos ((k - 1) / 2) with hP0 | hP0
        · have hvP0 : hget (hswap arr k ((k - 1) / 2)) 0 = hget arr k := by
            rw [← hP0]; exact hvP
          have hG0 : (((k - 1) / 2 : Nat) - 1) / 2 = 0 := by omega
          rw [hG0, hvP0]
          by_cases hck : c = k
          · subst hck
            rw [hvk]
            exact cmp_order hcmp
          · have hcP : c ≠ (k - 1) / 2 := by
              have := childIdx_pos hpc; omega
            rw [hother c hck hcP]
            exact order_trans (cmp_order hcmp) (H1 _ c hc hpc hck)
        · have hGP : childIdx (((k - 1) / 2 - 1) / 2) ((k - 1) / 2) :=
            childIdx_of_pos hP0
          have hGk : ((k - 1) / 2 - 1) / 2 ≠ k := by omega
          have hGne : ((k - 1) / 2 - 1) / 2 ≠ (k - 1) / 2 := by omega
          rw [hother _ hGk hGne]
          by_cases hck : c = k
          · subst hck
            rw [hvk]
            exact H1 _ _ hPlen hGP (by omega)
          · rw [hother c hck (by have := childIdx_lt hpc; omega)]
            exact order_trans (H1 _ _ hPlen hGP (by omega))
              (H1 _ c hc hpc hck)
      have := heapify_up_correct hk' H1' H2'
      rwa [length_hswap] at this
    · rename_i hcmp
      intro p c hc hpc
      by_cases hck : c = k
      · subst hck
        rw [childIdx_parent hpc]
        exact not_cmp_order (bool_eq_false hcmp)
      · exact H1 p c hc hpc hck
  · rename_i h0
    intro p c hc hpc
    exact H1 p c hc hpc (by have := childIdx_pos hpc; omega)
termination_by k
decreasing_by omega

/-! ### Fuelled (structurally recursive) counterparts of the sifts

These witness termination: `size - index` steps of fuel always suffice for
`heapify_down`, and `index + 1` for `heapify_up`. -/

def heapify_down_fuel (isMin : Bool) : Nat → List Int → Nat → Nat → List Int
  | 0, arr, _, _ => arr
  | fuel + 1, arr, index, size =>
    if pickChild isMin arr index size = index then arr
    else heapify_down_fuel isMin fuel
      (hswap arr index (pickChild isMin arr index size))
      (pickChild isMin arr index size) size

theorem heapify_down_eq_fuel {isMin : Bool} :
    ∀ (fuel : Nat) (arr : List Int) (index size : Nat),
      size - index ≤ fuel →
      heapify_down isMin arr index size
        = heapify_down_fuel isMin fuel arr index size := by
  intro fuel
  induction fuel with
  | zero =>
    intro arr index size hf
    rcases pickChild_cases isMin arr index size with hp | hp
    · rw [heapify_down_fuel]
      unfold heapify_down
      rw [dif_pos hp]
    · omega
  | succ fuel ih =>
    intro arr index size hf
    rw [heapify_down_fuel]
    unfold heapify_down
    split
    · rfl
    · rename_i hp
      rcases pickChild_cases isMin arr index size with hp' | hp'
      · exact absurd hp' hp
      · exact ih _ _ _ (by omega)

/-- Fuel `size - index` always suffices (hypothesis-free form). -/
theorem heapify_down_eq_fuel_self (isMin : Bool) (arr : List Int)
    (index size : Nat) :
    heapify_down isMin arr index size
      = heapify_down_fuel isMin (size - index) arr index size :=
  heapify_down_eq_fuel _ _ _ _ le_rfl

def heapify_up_fuel (isMin : Bool) : Nat → List Int → Nat → List Int
  | 0, arr, _ => arr
  | fuel + 1, arr, index =>
    if 0 < index then
      if cmp isMin (hget arr index) (hget arr ((index - 1) / 2)) then
        heapify_up_fuel isMin fuel
          (hswap arr index ((index - 1) / 2)) ((index - 1) / 2)
      else arr
    else arr

theorem heapify_up_eq_fuel {isMin : Bool} :
    ∀ (fuel : Nat) (arr : List Int) (index : Nat), index ≤ fuel →
      heapify_up isMin arr index = heapify_up_fuel isMin fuel arr index := by
  intro fuel
  induction fuel with
  | zero =>
    intro arr index hf
    have h0 : index = 0 := by omega
    rw [heapify_up_fuel, h0]
    unfold heapify_up
    rw [dif_neg (by omega)]
  | succ fuel ih =>
    intro arr index hf
    rw [heapify_up_fuel]
    unfold heapify_up
    split
    · rename_i h0
      split
      · exact ih _ _ (by omega)
      · rfl
    · rfl

theorem heapify_up_eq_fuel_self (isMin : Bool) (arr : List Int)
    (index : Nat) :
    heapify_up isMin arr index
      = heapify_up_fuel isMin (index + 1) arr index :=
  heapify_up_eq_fuel _ _ _ (by omega)

/-- `buildFrom` with the fuelled sift (kernel-computable form). -/
def buildFromF (isMin : Bool) (size : Nat) : List Int → Nat → List Int
  | arr, 0 => arr
  | arr, n + 1 =>
    buildFromF isMin size (heapify_down_fuel isMin (size - n) arr n size) n

theorem buildFrom_eq_F (isMin : Bool) (size : Nat) (arr : List Int)
    (n : Nat) : buildFrom isMin size arr n = buildFromF isMin size arr n := by
  induction n generalizing arr with
  | zero => rfl
  | succ n ih =>
    rw [buildFrom, buildFromF, heapify_down_eq_fuel_self, ih]

/-- Kernel-computable form of construction. -/
theorem init_eval (arr : List Int) (isMin : Bool) :
    Heap.init arr isMin
      = ⟨buildFromF isMin arr.length arr (arr.length / 2), isMin⟩ := by
  unfold Heap.init build_heap
  rw [buildFrom_eq_F]

/-! ### Auxiliary list facts for `push` and `pop` -/

theorem hget_append_lt {l : List Int} {v : Int} {i : Nat} (h : i < l.length) :
    hget (l ++ [v]) i = hget l i := by
  rw [hget_eq_getElem (by simp; omega), hget_eq_getElem h,
    List.getElem_append_left h]

theorem hget_append_last {l : List Int} {v : Int} :
    hget (l ++ [v]) l.length = v := by
  rw [hget_eq_getElem (by simp)]
  simp

theorem hget_dropLast {l : List Int} {i : Nat} (h : i < l.length - 1) :
    hget l.dropLast i = hget l i := by
  rw [hget_eq_getElem (by simp; omega), hget_eq_getElem (by omega),
    List.getElem_dropLast]

theorem dropLast_multiset {l : List Int} (h : l ≠ []) :
    (l.dropLast : Multiset Int) + {hget l (l.length - 1)} =
      (l : Multiset Int) := by
  have h1 := List.dropLast_append_getLast h
  have h2 : hget l (l.length - 1) = l.getLast h := by
    rw [List.getLast_eq_getElem,
      hget_eq_getElem (by cases l <;> simp_all)]
  rw [h2]
  conv_rhs => rw [← h1]
  simp only [← Multiset.cons_coe, ← Multiset.coe_add,
    List.singleton_append, List.append_assoc]
  simp only [Multiset.coe_add, ← Multiset.singleton_add]
  abel

/-- In a valid heap region the root dominates every in-range element. -/
theorem root_dominates {isMin : Bool} {arr : List Int} {size : Nat}
    (hInv : InvariantUpTo isMin arr size) :
    ∀ j, j < size → order isMin (hget arr 0) (hget arr j) := by
  intro j hj
  exact subtree_root_dominates (r := 0)
    (fun p c hc hpc _ => hInv p c hc hpc) j (anc_zero j) hj

/-! ### `build_heap` establishes the invariant -/

theorem buildFrom_invariant {isMin : Bool} {size : Nat} {arr : List Int}
    {n : Nat} (hsz : size ≤ arr.length)
    (H : ∀ p c, c < size → childIdx p c → n ≤ p →
      order isMin (hget arr p) (hget arr c)) :
    ∀ p c, c < size → childIdx p c →
      order isMin (hget (buildFrom isMin size arr n) p)
        (hget (buildFrom isMin size arr n) c) := by
  induction n generalizing arr with
  | zero => exact fun p c hc hpc => H p c hc hpc (Nat.zero_le p)
  | succ n ih =>
    rw [buildFrom]
    apply ih
    · rw [heapify_down_length]; exact hsz
    · intro p c hc hpc hnp
      exact heapify_down_correct hsz
        (fun p c hc hpc hlt => H p c hc hpc (by omega)) p c hc hpc hnp

theorem build_heap_invariant (isMin : Bool) (arr : List Int) :
    Invariant isMin (build_heap isMin arr) := by
  unfold Invariant
  intro p c hc hpc
  rw [build_heap_length] at hc
  unfold build_heap
  apply buildFrom_invariant le_rfl _ p c hc hpc
  intro p c hc hpc hnp
  exfalso
  unfold childIdx at hpc
  omega

theorem init_invariant (arr : List Int) (isMin : Bool) :
    Invariant isMin (Heap.init arr isMin).arr :=
  build_heap_invariant isMin arr

theorem init_isMinHeap (arr : List Int) (isMin : Bool) :
    (Heap.init arr isMin).isMinHeap = isMin := rfl

theorem init_perm (arr : List Int) (isMin : Bool) :
    (Heap.init arr isMin).arr.Perm arr := build_heap_perm isMin arr

/-! ### `push` preserves the invariant -/

theorem push_invariant {h : Heap} (hInv : Invariant h.isMinHeap h.arr)
    (v : Int) : Invariant h.isMinHeap (h.push v).arr := by
  unfold Heap.push Invariant
  dsimp only
  intro p c hc hpc
  rw [heapify_up_length] at hc
  have hlen : (h.arr ++ [v]).length = h.arr.length + 1 := by simp
  have e1 : (h.arr ++ [v]).length - 1 = h.arr.length := by simp
  rw [e1]
  apply heapify_up_correct (by omega) _ _ p c hc hpc
  · intro p c hc hpc hck
    rw [hlen] at hc
    have hcl : c < h.arr.length := by omega
    have hpl : p < h.arr.length := by have := childIdx_lt hpc; omega
    rw [hget_append_lt hcl, hget_append_lt hpl]
    exact hInv p c hcl hpc
  · intro c hc hpc
    exfalso
    unfold childIdx at hpc
    rw [hlen] at hc
    omega

theorem push_isMinHeap (h : Heap) (v : Int) :
    (h.push v).isMinHeap = h.isMinHeap := rfl

theorem push_multiset (h : Heap) (v : Int) :
    ((h.push v).arr : Multiset Int) = (h.arr : Multiset Int) + {v} := by
  unfold Heap.push
  have hp : (heapify_up h.isMinHeap (h.arr ++ [v])
      ((h.arr ++ [v]).length - 1)).Perm (h.arr ++ [v]) :=
    heapify_up_perm _ _ _ (by simp)
  rw [(Multiset.coe_eq_coe).mpr hp]
  simp only [← Multiset.cons_coe, ← Multiset.coe_add,
    List.singleton_append, List.append_assoc]
  simp only [Multiset.coe_add, ← Multiset.singleton_add]
  abel

/-! ### `pop`: result, state, invariant, multiset -/

theorem pop_empty {h : Heap} (he : h.arr.length = 0) :
    h.pop = (.error "Pop from empty heap", h) := by
  unfold Heap.pop; rw [if_pos he]

theorem pop_result {h : Heap} (hne : h.arr.length ≠ 0) :
    ∃ h' : Heap, h.pop = (.ok (hget h.arr 0), h') ∧
      h'.isMinHeap = h.isMinHeap ∧
      h'.arr.length + 1 = h.arr.length ∧
      (h'.arr : Multiset Int) + {hget h.arr 0} = (h.arr : Multiset Int) ∧
      (Invariant h.isMinHeap h.arr → Invariant h.isMinHeap h'.arr) := by
  have hswlen : (hswap h.arr 0 (h.arr.length - 1)).length = h.arr.length :=
    length_hswap _ _ _
  have hdllen : ((hswap h.arr 0 (h.arr.length - 1)).dropLast).length
      = h.arr.length - 1 := by rw [List.length_dropLast, hswlen]
  have hperm : (hswap h.arr 0 (h.arr.length - 1)).Perm h.arr :=
    hswap_perm (by omega) (by omega)
  have hlast : hget (hswap h.arr 0 (h.arr.length - 1)) (h.arr.length - 1)
      = hget h.arr 0 := hget_hswap_snd (by omega)
  have hdm : ((hswap h.arr 0 (h.arr.length - 1)).dropLast : Multiset Int)
      + {hget h.arr 0} = (h.arr : Multiset Int) := by
    have hne2 : hswap h.arr 0 (h.arr.length - 1) ≠ [] := by
      intro hx
      rw [hx] at hswlen
      simp at hswlen
      omega
    have := dropLast_multiset hne2
    rw [hswlen, hlast] at this
    rw [this]
    exact (Multiset.coe_eq_coe).mpr hperm
  have hmid : ∀ j, j < h.arr.length - 1 → 0 < j →
      hget ((hswap h.arr 0 (h.arr.length - 1)).dropLast) j = hget h.arr j :=
    by
    intro j hj hj0
    have hj' : j < (hswap h.arr 0 (h.arr.length - 1)).length - 1 := by
      rw [hswlen]; omega
    rw [hget_dropLast hj', hget_hswap_other (by omega) (by omega)]
  by_cases hz : ((hswap h.arr 0 (h.arr.length - 1)).dropLast).length = 0
  · refine ⟨⟨(hswap h.arr 0 (h.arr.length - 1)).dropLast, h.isMinHeap⟩,
      ?_, rfl, ?_, hdm, ?_⟩
    · unfold Heap.pop
      dsimp only
      rw [if_neg hne, if_pos hz]
    · rw [hdllen]; omega
    · intro _
      intro p c hc hpc
      rw [hz] at hc
      omega
  · refine ⟨⟨heapify_down h.isMinHeap
        ((hswap h.arr 0 (h.arr.length - 1)).dropLast) 0
        ((hswap h.arr 0 (h.arr.length - 1)).dropLast).length,
        h.isMinHeap⟩, ?_, rfl, ?_, ?_, ?_⟩
    · unfold Heap.pop
      dsimp only
      rw [if_neg hne, if_neg hz]
    · rw [heapify_down_length, hdllen]; omega
    · rw [(Multiset.coe_eq_coe).mpr (heapify_down_perm _ _ _ _ le_rfl)]
      exact hdm
    · intro hInv
      intro p c hc hpc
      rw [heapify_down_length] at hc
      apply heapify_down_correct le_rfl _ p c hc hpc (Nat.zero_le p)
      intro p c hc hpc hp0
      have hcl := childIdx_lt hpc
      rw [hdllen] at hc
      rw [hmid c hc (by omega), hmid p (by omega) hp0]
      exact hInv p c (by omega) hpc

/-! ### `push_pop` preserves the invariant -/

theorem push_pop_isMinHeap (h : Heap) (v : Int) :
    (h.push_pop v).2.isMinHeap = h.isMinHeap := by
  unfold Heap.push_pop
  split
  · rfl
  · dsimp only
    split <;> rfl

theorem push_pop_invariant {h : Heap} (hInv : Invariant h.isMinHeap h.arr)
    (v : Int) : Invariant h.isMinHeap (h.push_pop v).2.arr := by
  unfold Heap.push_pop
  split
  · exact push_invariant hInv v
  · dsimp only
    split
    · dsimp only
      intro p c hc hpc
      rw [heapify_down_length] at hc
      apply heapify_down_correct le_rfl _ p c hc hpc (Nat.zero_le p)
      intro p c hc hpc hp0
      have hcl := childIdx_lt hpc
      rw [hget_set_ne v (by omega), hget_set_ne v (by omega)]
      exact hInv p c (by simpa using hc) hpc
    · exact hInv

/-! ### `pyIndex` (Python `list.index`) -/

theorem pyIndex_eq_none_of_not_mem {l : List Int} {v : Int} (h : v ∉ l) :
    pyIndex l v = none := by
  induction l with
  | nil => rfl
  | cons x xs ih =>
    unfold pyIndex
    rw [if_neg (by intro hx; exact h (by rw [hx]; exact List.mem_cons_self v xs)),
      ih (fun hx => h (List.mem_cons_of_mem x hx))]
    rfl

theorem pyIndex_some_of_mem {l : List Int} {v : Int} (h : v ∈ l) :
    ∃ i, pyIndex l v = some i := by
  induction l with
  | nil => exact absurd h (List.not_mem_nil v)
  | cons x xs ih =>
    unfold pyIndex
    by_cases hx : x = v
    · exact ⟨0, by rw [if_pos hx]⟩
    · obtain ⟨i, hi⟩ := ih (by
        rcases List.mem_cons.mp h with h' | h'
        · exact absurd h'.symm hx
        · exact h')
      exact ⟨i + 1, by rw [if_neg hx, hi]; rfl⟩

theorem pyIndex_spec {l : List Int} {v : Int} {i : Nat}
    (h : pyIndex l v = some i) : i < l.length ∧ hget l i = v := by
  induction l generalizing i with
  | nil => exact absurd h (by unfold pyIndex; simp)
  | cons x xs ih =>
    unfold pyIndex at h
    by_cases hx : x = v
    · rw [if_pos hx] at h
      have : i = 0 := by simpa using h.symm
      subst this
      exact ⟨by simp, hx⟩
    · rw [if_neg hx] at h
      match hpy : pyIndex xs v with
      | none => rw [hpy] at h; simp at h
      | some j =>
        rw [hpy] at h
        simp at h
        obtain ⟨hj1, hj2⟩ := ih hpy
        refine ⟨by simp; omega, ?_⟩
        rw [← h, hget_cons_succ]
        exact hj2

/-! ### `replace`: error paths and success path -/

theorem replace_empty {h : Heap} (he : h.arr.length = 0) (o n : Int) :
    h.replace o n = (.error "Heap is empty", h) := by
  unfold Heap.replace; rw [if_pos he]

theorem replace_notfound {h : Heap} (hne : h.arr.length ≠ 0) {o : Int}
    (hno : o ∉ h.arr) (n : Int) :
    h.replace o n = (.error (toString o ++ " not found in heap"), h) := by
  unfold Heap.replace
  rw [if_neg hne, pyIndex_eq_none_of_not_mem hno]

theorem replace_ok_spec {h : Heap} {o : Int} (hne : h.arr.length ≠ 0)
    (hmem : o ∈ h.arr) (hInv : Invariant h.isMinHeap h.arr) (n : Int) :
    ∃ h' : Heap, h.replace o n = (.ok (), h') ∧
      h'.isMinHeap = h.isMinHeap ∧
      Invariant h.isMinHeap h'.arr ∧
      (h'.arr : Multiset Int) + {o} = (h.arr : Multiset Int) + {n} := by
  obtain ⟨i, hpy⟩ := pyIndex_some_of_mem hmem
  obtain ⟨hil, hio⟩ := pyIndex_spec hpy
  have hms : ((h.arr.set i n : List Int) : Multiset Int) + {o}
      = (h.arr : Multiset Int) + {n} := by
    have := multiset_set n hil
    rwa [hio] at this
  unfold Heap.replace
  rw [if_neg hne, hpy]
  dsimp only
  split
  · rename_i hcond
    obtain ⟨hi0, hcmp⟩ := hcond
    have hPlt : (i - 1) / 2 < i := by omega
    refine ⟨_, rfl, rfl, ?_, ?_⟩
    · intro p c hc hpc
      rw [heapify_up_length] at hc
      apply heapify_up_correct (by simpa using hil) _ _ p c hc hpc
      · intro p c hc hpc hci
        rw [List.length_set] at hc
        rw [hget_set_ne n hci]
        by_cases hpi : p = i
        · rw [hpi, hget_set_self n hil]
          have h1 : order h.isMinHeap n (hget h.arr ((i - 1) / 2)) := by
            have := cmp_order hcmp
            rwa [hget_set_self n hil,
              hget_set_ne n (by omega)] at this
          have h2 : order h.isMinHeap (hget h.arr ((i - 1) / 2))
              (hget h.arr i) :=
            hInv _ i hil (childIdx_of_pos hi0)
          have h3 : order h.isMinHeap (hget h.arr i) (hget h.arr c) :=
            hInv i c hc (hpi ▸ hpc)
          exact order_trans h1 (order_trans h2 h3)
        · rw [hget_set_ne n hpi]
          exact hInv p c hc hpc
      · intro c hc hpc
        rw [List.length_set] at hc
        have hci : c ≠ i := by have := childIdx_lt hpc; omega
        rw [hget_set_ne n hci, hget_set_ne n (by omega)]
        exact order_trans (hInv _ i hil (childIdx_of_pos hi0))
          (hInv i c hc hpc)
    · rw [(Multiset.coe_eq_coe).mpr
        (heapify_up_perm _ _ _ (by simpa using hil))]
      exact hms
  · rename_i hcond
    refine ⟨_, rfl, rfl, ?_, ?_⟩
    · have H1 : ∀ p c, c < (h.arr.set i n).length → childIdx p c → i < p →
          order h.isMinHeap (hget (h.arr.set i n) p)
            (hget (h.arr.set i n) c) := by
        intro p c hc hpc hip
        have := childIdx_lt hpc
        rw [List.length_set] at hc
        rw [hget_set_ne n (by omega), hget_set_ne n (by omega)]
        exact hInv p c hc hpc
      have hD := heapify_down_correct le_rfl H1
      have hloc := heapify_down_get_of_not_anc h.isMinHeap (h.arr.set i n)
        i (h.arr.set i n).length
      intro p c hc hpc
      rw [heapify_down_length] at hc
      rcases Nat.lt_or_ge p i with hpi | hpi
      · have hnancp : ¬ anc i p := fun hh => by have := anc_le hh; omega
        have harrp : hget (heapify_down h.isMinHeap (h.arr.set i n) i
            (h.arr.set i n).length) p = hget h.arr p := by
          rw [hloc p hnancp, hget_set_ne n (by omega)]
        by_cases hci : c = i
        · have hpar : p = (i - 1) / 2 := by
            rw [childIdx_parent hpc, hci]
          have hi0 : 0 < i := by rw [← hci]; exact childIdx_pos hpc
          have hordPn : order h.isMinHeap (hget h.arr ((i - 1) / 2)) n := by
            have hcf : cmp h.isMinHeap (hget (h.arr.set i n) i)
                (hget (h.arr.set i n) ((i - 1) / 2)) = false := by
              apply bool_eq_false
              intro hx
              exact hcond ⟨hi0, hx⟩
            have := not_cmp_order hcf
            rwa [hget_set_self n hil, hget_set_ne n (by omega)] at this
          have hanc_i : anc ((i - 1) / 2) i :=
            anc_child (anc_refl _) (childIdx_of_pos hi0)
          have hbnd := @heapify_down_bound h.isMinHeap (h.arr.set i n) i
            (h.arr.set i n).length le_rfl (hget h.arr ((i - 1) / 2))
            ?_ i (anc_refl i) (by rw [List.length_set]; omega)
          · rw [harrp, hpar, hci]
            exact hbnd
          · intro j hj hjl
            by_cases hji : j = i
            · subst hji
              rw [hget_set_self n hil]
              exact hordPn
            · rw [hget_set_ne n hji]
              apply @subtree_root_dominates h.isMinHeap h.arr h.arr.length
                ((i - 1) / 2) (fun p c hc hpc _ => hInv p c hc hpc)
                j (anc_trans hanc_i hj) (by simpa using hjl)
        · have hnancc : ¬ anc i c := by
            intro hh
            rcases anc_cases hh with hh' | ⟨hh0, hh'⟩
            · exact hci hh'.symm
            · unfold parentIdx at hh'
              rw [← childIdx_parent hpc] at hh'
              exact hnancp hh'
          have harrc : hget (heapify_down h.isMinHeap (h.arr.set i n) i
              (h.arr.set i n).length) c = hget h.arr c := by
            rw [hloc c hnancc, hget_set_ne n hci]
          rw [harrp, harrc]
          exact hInv p c (by simpa using hc) hpc
      · exact hD p c hc hpc hpi
    · rw [(Multiset.coe_eq_coe).mpr (heapify_down_perm _ _ _ _ le_rfl)]
      exact hms

/-- Pop until empty, collecting the returned roots in order. -/
def popAll (h : Heap) : List Int :=
  match hp : h.pop with
  | (.error _, _) => []
  | (.ok v, h') => v :: popAll h'
termination_by h.arr.length
decreasing_by
  have := pop_ok_length hp
  omega

theorem popAll_nil {h : Heap} (he : h.arr.length = 0) : popAll h = [] := by
  unfold popAll
  split
  · rfl
  · rename_i v h' heq
    rw [pop_empty he] at heq
    simp at heq

theorem popAll_cons {h : Heap} {v : Int} {h' : Heap}
    (hp : h.pop = (.ok v, h')) : popAll h = v :: popAll h' := by
  conv_lhs => unfold popAll
  split
  · rename_i e st heq
    rw [hp] at heq
    simp at heq
  · rename_i v2 h2 heq
    rw [hp] at heq
    have hv : v = v2 := by
      have := congrArg Prod.fst heq
      simpa using this
    have hh : h' = h2 := by
      have := congrArg Prod.snd heq
      simpa using this
    rw [hv, hh]

/-- Popping until empty returns exactly the heap's multiset of elements. -/
theorem popAll_multiset {h : Heap} (hInv : Invariant h.isMinHeap h.arr) :
    ((popAll h : List Int) : Multiset Int) = (h.arr : Multiset Int) := by
  by_cases hne : h.arr.length = 0
  · rw [popAll_nil hne]
    have : h.arr = [] := List.length_eq_zero.mp hne
    rw [this]
  · obtain ⟨h', hp, hmin, hlen, hms, hinv'⟩ := pop_result hne
    rw [popAll_cons hp]
    have ih := popAll_multiset (h := h') (by rw [hmin]; exact hinv' hInv)
    rw [← Multiset.cons_coe, ← hms, ih]
    rw [← Multiset.singleton_add]
    abel
termination_by h.arr.length
decreasing_by
  rename_i hlen2
  omega

/-- Popping until empty yields a sequence sorted by `order`. -/
theorem popAll_sorted {h : Heap} (hInv : Invariant h.isMinHeap h.arr) :
    List.Sorted (order h.isMinHeap) (popAll h) := by
  by_cases hne : h.arr.length = 0
  · rw [popAll_nil hne]
    exact List.sorted_nil
  · obtain ⟨h', hp, hmin, hlen, hms, hinv'⟩ := pop_result hne
    have hinv2 : Invariant h'.isMinHeap h'.arr := by
      rw [hmin]; exact hinv' hInv
    rw [popAll_cons hp, List.sorted_cons]
    constructor
    · intro b hb
      have hb1 : b ∈ h'.arr := by
        have hmm := popAll_multiset hinv2
        rw [← Multiset.mem_coe, ← hmm, Multiset.mem_coe]
        exact hb
      have hb2 : b ∈ h.arr := by
        rw [← Multiset.mem_coe, ← hms]
        exact Multiset.mem_add.mpr (Or.inl (Multiset.mem_coe.mpr hb1))
      obtain ⟨j, hj, hbj⟩ := List.mem_iff_getElem.mp hb2
      have hdom := root_dominates hInv j hj
      rwa [hget_eq_getElem hj, hbj] at hdom
    · have := popAll_sorted (h := h') hinv2
      rwa [hmin] at this
termination_by h.arr.length
decreasing_by
  all_goals omega

/-- The two error messages of `replace` are distinct, whatever the looked-up
value was. -/
theorem empty_msg_ne_notfound (s : String) :
    "Heap is empty" ≠ s ++ " not found in heap" := by
  intro h
  have hlen := congrArg String.length h
  rw [String.length_append] at hlen
  have h13 : ("Heap is empty" : String).length = 13 := by decide
  have h18 : (" not found in heap" : String).length = 18 := by decide
  omega

/-! ### A reference/store model of Python lists, for the aliasing claims

Python lists are heap-allocated mutable objects; `self._arr = list(arr)` and
`self._arr.copy()` allocate fresh objects whose contents copy an existing
one.  `PyState` maps object ids to list contents; `alloc` creates a fresh
object, `writeList` mutates an existing object in place. -/

structure PyState where
  lists : Nat → List Int
  next : Nat

/-- An in-place mutation of the list object `r` (covers element assignment,
`append`, `pop`, `clear`, ... — any change to that object's contents). -/
def writeList (s : PyState) (r : Nat) (l : List Int) : PyState :=
  ⟨fun i => if i = r then l else s.lists i, s.next⟩

/-- Allocation of a fresh list object with contents `l`. -/
def alloc (s : PyState) (l : List Int) : Nat × PyState :=
  (s.next, ⟨fun i => if i = s.next then l else s.lists i, s.next + 1⟩)

/-- A heap value in the store model: the id of its backing list plus the
polarity flag. -/
structure HeapRef where
  arrRef : Nat
  isMinHeap : Bool

/-- `Heap.__init__(arr, isMinHeap)` in the store model: `self._arr =
list(arr)` allocates a fresh object copying the contents of the caller's
list `callerRef`, then `build_heap()` mutates the heap's own object in
place. -/
def heapInitRef (s : PyState) (callerRef : Nat) (isMin : Bool) :
    HeapRef × PyState :=
  let a := alloc s (s.lists callerRef)
  (⟨a.1, isMin⟩, writeList a.2 a.1 (build_heap isMin (a.2.lists a.1)))

/-- `Heap.items()` in the store model: `self._arr.copy()` allocates a fresh
object with the same contents as the backing list. -/
def itemsRef (s : PyState) (h : HeapRef) : Nat × PyState :=
  alloc s (s.lists h.arrRef)

/-- `replace` succeeds (returns the ok branch) whenever the heap is
non-empty and the old value is present — no invariant needed. -/
theorem replace_ok_of_mem {h : Heap} (hne : h.arr.length ≠ 0) {o : Int}
    (hmem : o ∈ h.arr) (n : Int) :
    ∃ h', h.replace o n = (.ok (), h') := by
  obtain ⟨i, hpy⟩ := pyIndex_some_of_mem hmem
  unfold Heap.replace
  rw [if_neg hne, hpy]
  dsimp only
  split
  · exact ⟨_, rfl⟩
  · exact ⟨_, rfl⟩

/-! ## The claims -/

/-- C1: the spec claims `PushPop(v)` is equivalent to `Push(v)` then `Pop()`
(same returned value, same multiset), and on the max-heap from `[10,4,7]`,
`PushPop(20)` returns `20` leaving `{10,4,7}`.  The code violates this: its
branch condition `(self._is_min_heap and value > root) or not
(self._is_min_heap and value < root)` is always true on a max-heap, so
`push_pop 20` overwrites the root, returns the OLD root `10` and leaves
storage `[20,4,7]`, while `push 20` followed by `pop` returns `20` and
leaves `[10,4,7]`. -/
theorem C1_push_pop_not_equivalent :
    (Heap.init [10, 4, 7] false).push_pop 20 = (10, ⟨[20, 4, 7], false⟩) ∧
    ((Heap.init [10, 4, 7] false).push 20).pop
      = (.ok 20, ⟨[10, 4, 7], false⟩) := by
  have hinit : Heap.init [10, 4, 7] false = ⟨[10, 4, 7], false⟩ := by
    rw [init_eval]; decide
  constructor
  · rw [hinit]
    unfold Heap.push_pop
    simp only [heapify_down_eq_fuel_self]
    rfl
  · rw [hinit]
    have hpush : (Heap.mk [10, 4, 7] false).push 20
        = ⟨[20, 10, 7, 4], false⟩ := by
      unfold Heap.push
      simp only [heapify_up_eq_fuel_self]
      rfl
    rw [hpush]
    unfold Heap.pop
    simp only [heapify_down_eq_fuel_self]
    rfl

/-- C2: the spec claims `Peek` returns the root `storage[0]` on a non-empty
heap (9 on the max-heap from `[3,1,4,1,5,9,2,6]`) and `None` only when
empty.  The code tests the truthiness of the method object `self.is_empty`
instead of calling it, so `peek` returns `None` on EVERY heap, even though
the root element really is 9. -/
theorem C2_peek_always_none :
    (Heap.init [3, 1, 4, 1, 5, 9, 2, 6] false).peek = none ∧
    hget (Heap.init [3, 1, 4, 1, 5, 9, 2, 6] false).arr 0 = 9 ∧
    ∀ h : Heap, h.peek = none := by
  have hinit : Heap.init [3, 1, 4, 1, 5, 9, 2, 6] false
      = ⟨[9, 6, 4, 1, 5, 3, 2, 1], false⟩ := by
    rw [init_eval]; decide
  exact ⟨rfl, by rw [hinit]; rfl, fun h => rfl⟩

/-- C3: after every public mutating operation returns (construction, push,
pop on non-empty, push_pop, successful replace, clear), the heap invariant
`order(storage[i], storage[c])` holds for every in-range parent/child
pair. -/
theorem C3_invariant_preservation (h : Heap) (l : List Int) (isMin : Bool)
    (v old new : Int) (hInv : Invariant h.isMinHeap h.arr) :
    Invariant isMin (Heap.init l isMin).arr ∧
    Invariant h.isMinHeap (h.push v).arr ∧
    (∀ r h', h.pop = (.ok r, h') → Invariant h.isMinHeap h'.arr) ∧
    Invariant h.isMinHeap (h.push_pop v).2.arr ∧
    (∀ h', h.replace old new = (.ok (), h') →
      Invariant h.isMinHeap h'.arr) ∧
    Invariant h.isMinHeap h.clear.arr := by
  refine ⟨init_invariant l isMin, push_invariant hInv v, ?_,
    push_pop_invariant hInv v, ?_, ?_⟩
  · intro r h' hp
    by_cases hne : h.arr.length = 0
    · rw [pop_empty hne] at hp
      exact absurd (congrArg Prod.fst hp) (by simp)
    · obtain ⟨h2, hp2, hmin2, _, _, hinv2⟩ := pop_result hne
      rw [hp2] at hp
      have he : h2 = h' := by
        have := congrArg Prod.snd hp
        simpa using this
      rw [← he]
      exact hinv2 hInv
  · intro h' hp
    by_cases hne : h.arr.length = 0
    · rw [replace_empty hne] at hp
      exact absurd (congrArg Prod.fst hp) (by simp)
    · by_cases hmem : old ∈ h.arr
      · obtain ⟨h2, hp2, hmin2, hinv2, _⟩ :=
          replace_ok_spec hne hmem hInv new
        rw [hp2] at hp
        have he : h2 = h' := by
          have := congrArg Prod.snd hp
          simpa using this
        rw [← he]
        exact hinv2
      · rw [replace_notfound hne hmem new] at hp
        exact absurd (congrArg Prod.fst hp) (by simp)
  · intro p c hc hpc
    simp [Heap.clear] at hc

theorem C3_witness :
    Invariant (Heap.mk [3, 1, 2] false).isMinHeap
      (Heap.mk [3, 1, 2] false).arr ∧
    Invariant (Heap.mk [3, 1, 2] false).isMinHeap
      ((Heap.mk [3, 1, 2] false).push 5).arr :=
  ⟨by decide, (C3_invariant_preservation (Heap.mk [3, 1, 2] false)
    [1, 2] true 5 1 4 (by decide)).2.1⟩

/-- C4: building a heap from any finite list and popping until empty yields
a sequence sorted by `order` — non-decreasing in ascending/min mode,
non-increasing in descending/max mode — and that sequence is a permutation
of the original list. -/
theorem C4_pop_ordering (l : List Int) (isMin : Bool) :
    (popAll (Heap.init l isMin)).Perm l ∧
    List.Sorted (order isMin) (popAll (Heap.init l isMin)) ∧
    List.Sorted (fun x y : Int => x ≤ y) (popAll (Heap.init l true)) ∧
    List.Sorted (fun x y : Int => y ≤ x) (popAll (Heap.init l false)) := by
  have hInv := init_invariant l isMin
  have hms := popAll_multiset (h := Heap.init l isMin) hInv
  refine ⟨?_, popAll_sorted (h := Heap.init l isMin) hInv, ?_, ?_⟩
  · rw [← Multiset.coe_eq_coe, hms]
    exact (Multiset.coe_eq_coe).mpr (init_perm l isMin)
  · exact popAll_sorted (h := Heap.init l true) (init_invariant l true)
  · exact popAll_sorted (h := Heap.init l false) (init_invariant l false)

/-- C5: `pop` raises the empty-collection error exactly when the size is 0,
and `replace` raises the not-found error exactly when the heap is non-empty
and the old value is absent; in every error case the heap state (contents
and polarity flag) is returned exactly as it was. -/
theorem C5_error_handling (h : Heap) (o n : Int) :
    ((h.pop = (.error "Pop from empty heap", h)) ↔ h.arr.length = 0) ∧
    ((∃ e, (h.pop).1 = .error e) ↔ h.arr.length = 0) ∧
    ((h.replace o n = (.error (toString o ++ " not found in heap"), h)) ↔
      (h.arr.length ≠ 0 ∧ o ∉ h.arr)) ∧
    (∀ e, (h.replace o n).1 = .error e → (h.replace o n).2 = h) ∧
    (∀ e, (h.pop).1 = .error e → (h.pop).2 = h) := by
  have hpop_ok : h.arr.length ≠ 0 → ∃ v h', h.pop = (.ok v, h') := by
    intro hne
    obtain ⟨h', hp, _⟩ := pop_result hne
    exact ⟨_, h', hp⟩
  refine ⟨⟨?_, fun he => pop_empty he⟩, ⟨?_, ?_⟩, ⟨?_, ?_⟩, ?_, ?_⟩
  · intro hp
    by_contra hne
    obtain ⟨v, h', hp'⟩ := hpop_ok hne
    rw [hp'] at hp
    exact absurd (congrArg Prod.fst hp) (by simp)
  · rintro ⟨e, he⟩
    by_contra hne
    obtain ⟨v, h', hp'⟩ := hpop_ok hne
    rw [hp'] at he
    simp at he
  · intro he
    exact ⟨"Pop from empty heap", by rw [pop_empty he]⟩
  · intro hp
    by_cases hne : h.arr.length = 0
    · rw [replace_empty hne o n] at hp
      have := congrArg Prod.fst hp
      simp at this
      exact absurd this (empty_msg_ne_notfound (toString o))
    · refine ⟨hne, ?_⟩
      intro hmem
      obtain ⟨h', hp'⟩ := replace_ok_of_mem hne hmem n
      rw [hp'] at hp
      exact absurd (congrArg Prod.fst hp) (by simp)
  · rintro ⟨hne, hmem⟩
    exact replace_notfound hne hmem n
  · intro e he
    by_cases hne : h.arr.length = 0
    · rw [replace_empty hne o n]
    · by_cases hmem : o ∈ h.arr
      · obtain ⟨h', hp'⟩ := replace_ok_of_mem hne hmem n
        rw [hp'] at he
        simp at he
      · rw [replace_notfound hne hmem n]
  · intro e he
    by_cases hne : h.arr.length = 0
    · rw [pop_empty hne]
    · obtain ⟨v, h', hp'⟩ := hpop_ok hne
      rw [hp'] at he
      simp at he

theorem C5_witness :
    (Heap.mk [] false).pop
      = (.error "Pop from empty heap", Heap.mk [] false) :=
  (C5_error_handling (Heap.mk [] false) 0 0).1.mpr rfl

/-- C6: `build_heap` is the bottom-up sweep `buildFrom` over indices
`size // 2 - 1` down to `0` (one `heapify_down` each), and afterwards the
invariant holds while the multiset of elements is unchanged.  Applied to an
already-valid array this in particular gives the idempotence property: the
multiset is unchanged and re-validating the invariant passes. -/
theorem C6_build_correct (isMin : Bool) (arr : List Int) :
    build_heap isMin arr = buildFrom isMin arr.length arr (arr.length / 2) ∧
    Invariant isMin (build_heap isMin arr) ∧
    (build_heap isMin arr).Perm arr :=
  ⟨rfl, build_heap_invariant isMin arr, build_heap_perm isMin arr⟩

/-- C7: on a non-empty heap containing `old`, `replace old new` succeeds,
the invariant holds afterwards, and (for `old ≠ new`) `new` occurs exactly
once more and `old` exactly once fewer than before.  Concretely, on the
min-heap built from `[5,3,8,1]`, after `replace 8 0` the root element is
`0`. -/
theorem C7_replace_correct (h : Heap) (o n : Int)
    (hInv : Invariant h.isMinHeap h.arr) (hmem : o ∈ h.arr) (hon : o ≠ n) :
    (∃ h', h.replace o n = (.ok (), h') ∧
      h'.isMinHeap = h.isMinHeap ∧
      Invariant h.isMinHeap h'.arr ∧
      h'.arr.count n = h.arr.count n + 1 ∧
      h'.arr.count o + 1 = h.arr.count o) ∧
    hget ((Heap.init [5, 3, 8, 1] true).replace 8 0).2.arr 0 = 0 := by
  constructor
  · have hne : h.arr.length ≠ 0 := by
      have := List.length_pos.mpr (List.ne_nil_of_mem hmem)
      omega
    obtain ⟨h', hp, hmin, hinv, hms⟩ := replace_ok_spec hne hmem hInv n
    refine ⟨h', hp, hmin, hinv, ?_, ?_⟩
    · have hco := congrArg (Multiset.count n) hms
      rw [Multiset.count_add, Multiset.count_add, Multiset.count_singleton,
        Multiset.count_singleton] at hco
      rw [if_neg (fun hh : n = o => hon hh.symm), if_pos rfl] at hco
      simp only [Multiset.coe_count] at hco
      omega
    · have hco := congrArg (Multiset.count o) hms
      rw [Multiset.count_add, Multiset.count_add, Multiset.count_singleton,
        Multiset.count_singleton] at hco
      rw [if_pos rfl, if_neg hon] at hco
      simp only [Multiset.coe_count] at hco
      omega
  · have h1 : Heap.init [5, 3, 8, 1] true = ⟨[1, 3, 8, 5], true⟩ := by
      rw [init_eval]; decide
    rw [h1]
    have h2 : (Heap.mk [1, 3, 8, 5] true).replace 8 0
        = (.ok (), ⟨[0, 3, 1, 5], true⟩) := by
      unfold Heap.replace
      simp only [heapify_up_eq_fuel_self, heapify_down_eq_fuel_self]
      rfl
    rw [h2]
    rfl

theorem C7_witness :
    Invariant (Heap.mk [1, 3, 8, 5] true).isMinHeap
      (Heap.mk [1, 3, 8, 5] true).arr ∧
    (8 : Int) ∈ (Heap.mk [1, 3, 8, 5] true).arr ∧
    (8 : Int) ≠ 0 ∧
    hget ((Heap.init [5, 3, 8, 1] true).replace 8 0).2.arr 0 = 0 :=
  ⟨by decide, by decide, by decide,
    (C7_replace_correct (Heap.mk [1, 3, 8, 5] true) 8 0
      (by decide) (by decide) (by decide)).2⟩

/-- C8: construction copies the caller's list into a freshly allocated
backing object (so mutating the heap never changes the caller's
collection), and `items` returns a freshly allocated copy of the backing
list in internal array order (so mutating the returned list never changes
the heap's storage). -/
theorem C8_no_aliasing (s : PyState) (callerRef : Nat) (isMin : Bool)
    (hcaller : callerRef < s.next) :
    (heapInitRef s callerRef isMin).1.arrRef ≠ callerRef ∧
    (heapInitRef s callerRef isMin).2.lists callerRef
      = s.lists callerRef ∧
    (heapInitRef s callerRef isMin).2.lists
        (heapInitRef s callerRef isMin).1.arrRef
      = build_heap isMin (s.lists callerRef) ∧
    (∀ l, (writeList (heapInitRef s callerRef isMin).2
        (heapInitRef s callerRef isMin).1.arrRef l).lists callerRef
      = s.lists callerRef) ∧
    (∀ (t : PyState) (hr : HeapRef), hr.arrRef < t.next →
      (itemsRef t hr).1 ≠ hr.arrRef ∧
      (itemsRef t hr).2.lists (itemsRef t hr).1 = t.lists hr.arrRef ∧
      ∀ l, (writeList (itemsRef t hr).2 (itemsRef t hr).1 l).lists hr.arrRef
        = t.lists hr.arrRef) := by
  refine ⟨by unfold heapInitRef alloc; dsimp only; omega, ?_, ?_, ?_, ?_⟩
  · unfold heapInitRef alloc writeList
    dsimp only
    rw [if_neg (by omega), if_neg (by omega)]
  · unfold heapInitRef alloc writeList
    dsimp only
    rw [if_pos rfl, if_pos rfl]
  · intro l
    unfold heapInitRef alloc writeList
    dsimp only
    rw [if_neg (by omega), if_neg (by omega), if_neg (by omega)]
  · intro t hr hlt
    refine ⟨by unfold itemsRef alloc; dsimp only; omega, ?_, ?_⟩
    · unfold itemsRef alloc
      dsimp only
      rw [if_pos rfl]
    · intro l
      unfold itemsRef alloc writeList
      dsimp only
      rw [if_neg (by omega), if_neg (by omega)]

theorem C8_witness :
    (0 < (⟨fun _ => [1, 2], 1⟩ : PyState).next) ∧
    (heapInitRef ⟨fun _ => [1, 2], 1⟩ 0 false).1.arrRef ≠ 0 :=
  ⟨by decide, (C8_no_aliasing ⟨fun _ => [1, 2], 1⟩ 0 false (by decide)).1⟩

/-- C9: `heapify_down index size` terminates for every starting index and
logical size within the storage length: `size - index` steps of fuel always
suffice (the recursion is well-founded on `size - index`); it selects the
highest-priority of `index` and its in-range children, recursing after a
swap exactly when the selection differs from `index`, and stopping (with
`index` dominating its in-range children) otherwise. -/
theorem C9_siftdown_terminates (isMin : Bool) (arr : List Int)
    (index size : Nat) (hsz : size ≤ arr.length) :
    heapify_down isMin arr index size
      = heapify_down_fuel isMin (size - index) arr index size ∧
    (pickChild isMin arr index size = index →
      heapify_down isMin arr index size = arr ∧
      ∀ c, c < size → childIdx index c →
        order isMin (hget arr index) (hget arr c)) ∧
    (pickChild isMin arr index size ≠ index →
      childIdx index (pickChild isMin arr index size) ∧
      pickChild isMin arr index size < size ∧
      (∀ c, c < size → childIdx index c →
        order isMin (hget arr (pickChild isMin arr index size))
          (hget arr c)) ∧
      heapify_down isMin arr index size
        = heapify_down isMin
            (hswap arr index (pickChild isMin arr index size))
            (pickChild isMin arr index size) size) := by
  refine ⟨heapify_down_eq_fuel_self isMin arr index size, ?_, ?_⟩
  · intro heq
    constructor
    · conv_lhs => unfold heapify_down
      rw [dif_pos heq]
    · exact pickChild_eq_spec heq
  · intro hne
    obtain ⟨h1, h2, _, h4⟩ := pickChild_ne_spec hne
    refine ⟨h1, h2, h4, ?_⟩
    conv_lhs => unfold heapify_down
    rw [dif_neg hne]

theorem C9_witness :
    ((3 : Nat) ≤ ([5, 9, 3] : List Int).length) ∧
    heapify_down false [5, 9, 3] 0 3
      = heapify_down_fuel false 3 [5, 9, 3] 0 3 :=
  ⟨by decide, (C9_siftdown_terminates false [5, 9, 3] 0 3 (by decide)).1⟩

/-- C10: `replace` on an empty heap raises immediately — before any scan of
storage — returning the dedicated "Heap is empty" error (distinct from the
not-found error for every possible looked-up value) with the heap state
exactly as it was. -/
theorem C10_replace_on_empty (h : Heap) (o n : Int)
    (he : h.arr.length = 0) :
    h.replace o n = (.error "Heap is empty", h) ∧
    ∀ o2 : Int, "Heap is empty" ≠ toString o2 ++ " not found in heap" :=
  ⟨replace_empty he o n, fun o2 => empty_msg_ne_notfound (toString o2)⟩

theorem C10_witness :
    ((Heap.mk [] true).arr.length = 0) ∧
    (Heap.mk [] true).replace 7 1
      = (.error "Heap is empty", Heap.mk [] true) :=
  ⟨rfl, (C10_replace_on_empty (Heap.mk [] true) 7 1 rfl).1⟩

end PyHeap
